import Mathlib

/-!
Formal model of the deterministic core of the deep_investor_agent trading
pipeline, translated from `src/agents/portfolio_manager.py` and
`src/agents/technicals.py`.

Python floats are modelled as exact rationals (`ℚ`) in the portfolio
module, whose arithmetic is floor/min/max only, and as real numbers (`ℝ`)
in the technical-analysis module, which uses `log`/`sqrt`.  Python dicts
are modelled as functions into `Option` (a missing key is `none`); the
external LLM is modelled as an explicit input (`none` = the call failed
and the default factory runs, `some g` = the parsed decision map `g`).
-/

namespace DeepInvestor

/-- The five trading actions of `PortfolioDecision.action`
    (`Literal["buy", "sell", "short", "cover", "hold"]`). -/
inductive Action where
  | buy
  | sell
  | short
  | cover
  | hold
deriving DecidableEq

/-- A per-ticker position dict (`portfolio["positions"][ticker]`): only the
    `long` / `short` share counts are read by the solver; the cost-basis
    fields are never used there and are omitted. -/
structure Position where
  long : Option ℤ
  short : Option ℤ

/-- The portfolio snapshot dict.  Each field is `Option`al because the code
    reads every key with `portfolio.get(key, default)`. -/
structure Portfolio where
  cash : Option ℚ
  positions : Option (String → Option Position)
  margin_requirement : Option ℚ
  margin_used : Option ℚ
  equity : Option ℚ

/-- `cash = float(portfolio.get("cash", 0.0))` (line 105). -/
def pfCash (pf : Portfolio) : ℚ := pf.cash.getD 0

/-- `positions = portfolio.get("positions", {}) or {}` (line 106):
    a missing (or falsy) positions entry behaves as the empty dict. -/
def pfPositions (pf : Portfolio) : String → Option Position :=
  pf.positions.getD (fun _ => none)

/-- `margin_requirement = float(portfolio.get("margin_requirement", 0.5))`
    (line 107). -/
def pfMarginRequirement (pf : Portfolio) : ℚ := pf.margin_requirement.getD (1/2)

/-- `margin_used = float(portfolio.get("margin_used", 0.0))` (line 108). -/
def pfMarginUsed (pf : Portfolio) : ℚ := pf.margin_used.getD 0

/-- `equity = float(portfolio.get("equity", cash))` (line 109). -/
def pfEquity (pf : Portfolio) : ℚ := pf.equity.getD (pfCash pf)

/-- The per-ticker `actions` dict of `compute_allowed_actions` before
    pruning (lines 121-148).  `actions` starts as all zeros; each branch
    overwrites one key, and a key is only overwritten with a positive
    value, so the pre-prune value of each action is exactly: -/
def rawActions (price : ℚ) (longShares shortShares maxQty : ℤ)
    (cash mr mu eqv : ℚ) : Action → ℤ := fun a =>
  match a with
  | .sell => if 0 < longShares then longShares else 0
  | .buy =>
      if 0 < cash ∧ 0 < price then
        max 0 (min maxQty ⌊cash / price⌋)
      else 0
  | .cover => if 0 < shortShares then shortShares else 0
  | .short =>
      if 0 < price ∧ 0 < maxQty then
        if mr ≤ 0 then maxQty
        else max 0 (min maxQty ⌊(max 0 (eqv / mr - mu)) / price⌋)
      else 0
  | .hold => 0

/-- Lines 150-154: `pruned = {"hold": 0}` plus every non-hold action whose
    capacity is strictly positive. -/
def pruneActions (raw : Action → ℤ) : Action → Option ℤ := fun a =>
  if a = .hold then some 0
  else if 0 < raw a then some (raw a) else none

/-- `compute_allowed_actions` (lines 97-158).  The result maps each ticker
    of `tickers` to its pruned allowed-action dict (`none` for tickers the
    loop never visits, i.e. keys absent from the returned dict). -/
def compute_allowed_actions (tickers : List String)
    (current_prices : String → Option ℚ) (max_shares : String → Option ℤ)
    (portfolio : Portfolio) : String → Option (Action → Option ℤ) := fun t =>
  if t ∈ tickers then
    let price : ℚ := (current_prices t).getD 0
    let pos : Position := (pfPositions portfolio t).getD ⟨some 0, some 0⟩
    let longShares : ℤ := pos.long.getD 0
    let shortShares : ℤ := pos.short.getD 0
    let maxQty : ℤ := (max_shares t).getD 0
    some (pruneActions (rawActions price longShares shortShares maxQty
      (pfCash portfolio) (pfMarginRequirement portfolio)
      (pfMarginUsed portfolio) (pfEquity portfolio)))
  else none

/-- `PortfolioDecision` (lines 13-17): confidence is an exact number here
    (the pydantic field is declared `int` but the code instantiates it
    with floats such as `100.0`). -/
structure Decision where
  action : Action
  quantity : ℤ
  confidence : ℚ
  reasoning : String
deriving DecidableEq

/-- The pre-filled decision for tickers with no feasible trade
    (lines 199-201). -/
def prefillDecision : Decision :=
  ⟨.hold, 0, 100, "No valid trade available"⟩

/-- The default decision used by `create_default_portfolio_output`
    (lines 322-325). -/
def defaultDecision : Decision :=
  ⟨.hold, 0, 0, "Default decision: hold"⟩

/-- `set(aa.keys()) == {"hold"}` for `aa = allowed_actions_full.get(t, {"hold": 0})`
    (lines 196-198): true iff no non-hold action is present (and true for
    the `.get` default `{"hold": 0}` when the ticker has no entry). -/
def onlyHoldOpt (o : Option (Action → Option ℤ)) : Bool :=
  match o with
  | some f => (f .buy).isNone && (f .sell).isNone && (f .short).isNone && (f .cover).isNone
  | none => true

/-- The `prefilled_decisions` dict built by the loop of lines 193-203. -/
def prefilledDecisions (tickers : List String)
    (current_prices : String → Option ℚ) (max_shares : String → Option ℤ)
    (portfolio : Portfolio) : String → Option Decision := fun t =>
  if t ∈ tickers ∧
      onlyHoldOpt (compute_allowed_actions tickers current_prices max_shares portfolio t) then
    some prefillDecision
  else none

/-- The `tickers_for_llm` list built by the same loop. -/
def tickersForLLM (tickers : List String)
    (current_prices : String → Option ℚ) (max_shares : String → Option ℤ)
    (portfolio : Portfolio) : List String :=
  tickers.filter (fun t =>
    !(onlyHoldOpt (compute_allowed_actions tickers current_prices max_shares portfolio t)))

/-- `create_default_portfolio_output` (lines 319-326): start from the
    prefilled holds, then give every ticker sent to the LLM the default
    hold decision. -/
def defaultFactoryDecisions (tickers : List String)
    (current_prices : String → Option ℚ) (max_shares : String → Option ℤ)
    (portfolio : Portfolio) : String → Option Decision := fun t =>
  if t ∈ tickersForLLM tickers current_prices max_shares portfolio then
    some defaultDecision
  else prefilledDecisions tickers current_prices max_shares portfolio t

/-- `llm_out` (lines 328-334): the decision map returned by `call_llm` —
    the parsed LLM output on success, the default factory output when the
    call failed. -/
def llmOutDecisions (tickers : List String)
    (current_prices : String → Option ℚ) (max_shares : String → Option ℤ)
    (portfolio : Portfolio) (llm : Option (String → Option Decision)) :
    String → Option Decision :=
  match llm with
  | some g => g
  | none => defaultFactoryDecisions tickers current_prices max_shares portfolio

/-- Lines 336-338: `merged = dict(prefilled_decisions); merged.update(llm_out.decisions)`
    — an entry of `llm_out` always wins over a prefilled one. -/
def mergedDecisions (tickers : List String)
    (current_prices : String → Option ℚ) (max_shares : String → Option ℤ)
    (portfolio : Portfolio) (llm : Option (String → Option Decision)) :
    String → Option Decision := fun t =>
  match llmOutDecisions tickers current_prices max_shares portfolio llm t with
  | some d => some d
  | none => prefilledDecisions tickers current_prices max_shares portfolio t

/-- One analyst-signal payload dict: the override loop reads the keys
    `"sig"` and `"signal"` (line 357); all other keys are ignored. -/
structure SigEntry where
  sig : Option String
  signal : Option String
deriving DecidableEq

/-- `sig = signal_data.get("sig") or signal_data.get("signal")` (line 357):
    Python `or` falls through on a falsy left operand (absent key or the
    empty string). -/
def sigOf (e : SigEntry) : Option String :=
  match e.sig with
  | some s => if s = "" then e.signal else some s
  | none => e.signal

/-- `sig.lower()` (line 359): characterwise ASCII lowercasing (the
    signal labels compared against are ASCII). -/
def lowerString (s : String) : String := String.mk (s.data.map Char.toLower)

/-- The `(bullish_count, bearish_count, neutral_count)` tally of
    lines 351-365.  `if sig:` skips falsy values, then the lowercased
    string is compared against the three labels. -/
def countSignals (sigs : List (String × SigEntry)) : ℕ × ℕ × ℕ :=
  sigs.foldl (fun acc p =>
    match sigOf p.2 with
    | some s =>
        if s = "" then acc
        else if lowerString s = "bullish" then (acc.1 + 1, acc.2.1, acc.2.2)
        else if lowerString s = "bearish" then (acc.1, acc.2.1 + 1, acc.2.2)
        else if lowerString s = "neutral" then (acc.1, acc.2.1, acc.2.2 + 1)
        else acc
    | none => acc) (0, 0, 0)

/-- The reasoning string built at line 378 when a decision is overridden. -/
def overrideReasoning (neutralCount : ℕ) (a : Action) : String :=
  "All " ++ toString neutralCount ++
    " analyst(s) are NEUTRAL. Following rule: NEUTRAL signals → HOLD. Original decision was " ++
    (match a with
     | .buy => "buy"
     | .sell => "sell"
     | .short => "short"
     | .cover => "cover"
     | .hold => "hold") ++
    ", but corrected to HOLD per system rules."

/-- Lines 367-379: if every counted signal is neutral (and there is at
    least one), a non-hold decision is replaced by a forced hold that
    keeps the original confidence. -/
def applyNeutralOverride (sigs : List (String × SigEntry)) (d : Decision) : Decision :=
  let counts := countSignals sigs
  let total := counts.1 + counts.2.1 + counts.2.2
  if 0 < total ∧ counts.2.2 = total ∧ counts.1 = 0 ∧ counts.2.1 = 0 then
    if d.action ≠ .hold then
      ⟨.hold, 0, d.confidence, overrideReasoning counts.2.2 d.action⟩
    else d
  else d

/-- `generate_trading_decision` (lines 178-381), with the LLM call made an
    explicit input.  Prompt assembly (lines 208-316) has no effect on the
    returned decisions and is not modelled.  If no ticker has a feasible
    trade the prefilled holds are returned without consulting the LLM
    (lines 205-206); otherwise the LLM output (or the default factory
    output on failure) is merged over the prefilled holds and the
    all-neutral override post-pass of lines 340-379 runs over
    `tickers_for_llm` (a ticker absent from `merged` is skipped, as is a
    ticker with an empty signal dict). -/
def generate_trading_decision (tickers : List String)
    (signals_by_ticker : String → List (String × SigEntry))
    (current_prices : String → Option ℚ) (max_shares : String → Option ℤ)
    (portfolio : Portfolio) (llm : Option (String → Option Decision)) :
    String → Option Decision := fun t =>
  if (tickersForLLM tickers current_prices max_shares portfolio).isEmpty then
    prefilledDecisions tickers current_prices max_shares portfolio t
  else if t ∈ tickersForLLM tickers current_prices max_shares portfolio then
    (mergedDecisions tickers current_prices max_shares portfolio llm t).map (fun d =>
      if (signals_by_ticker t).isEmpty then d
      else applyNeutralOverride (signals_by_ticker t) d)
  else mergedDecisions tickers current_prices max_shares portfolio llm t

/-- Structural validity of one decision against one allowed-action set:
    the action has an entry and the quantity is at most that entry. -/
def decisionOk (ao : Option (Action → Option ℤ)) (d : Decision) : Bool :=
  match ao with
  | some f =>
      match f d.action with
      | some b => decide (d.quantity ≤ b)
      | none => false
  | none => false

/-- `decisionOk` lifted to an optional decision (an absent decision is
    vacuously fine). -/
def decisionOkO (ao : Option (Action → Option ℤ)) (od : Option Decision) : Bool :=
  match od with
  | some d => decisionOk ao d
  | none => true


/-- One pruned map entry is acceptable when absent or strictly positive. -/
def posEntry : Option ℤ → Bool
  | none => true
  | some v => decide (0 < v)

/-- The shape invariant of a pruned allowed-action map: `hold` is present
    with value 0 and every other present entry is strictly positive. -/
def prunedOk (f : Action → Option ℤ) : Bool :=
  decide (f .hold = some 0) && posEntry (f .buy) && posEntry (f .sell) &&
    posEntry (f .short) && posEntry (f .cover)


/-- A signal direction (`bullish`/`bearish`/`neutral`). -/
inductive Signal where
  | bullish
  | bearish
  | neutral
deriving DecidableEq

/-- One strategy's input to the combiner: `{signal, confidence}`
    (`weighted_signal_combination` reads exactly these two keys). -/
structure SigConf where
  signal : Signal
  confidence : ℚ
deriving DecidableEq

/-- `signal_values = {"bullish": 1, "neutral": 0, "bearish": -1}` (line 388). -/
def signalValue : Signal → ℚ
  | .bullish => 1
  | .neutral => 0
  | .bearish => -1

/-- The `(weighted_sum, total_confidence)` accumulation of lines 390-399.
    The weights dict is modelled as a total function (the code would raise
    `KeyError` for a strategy without a weight; callers always pass a
    complete dict). -/
def weightedSums (signals : List (String × SigConf)) (weights : String → ℚ) : ℚ × ℚ :=
  signals.foldl (fun acc p =>
    (acc.1 + signalValue p.2.signal * weights p.1 * p.2.confidence,
     acc.2 + weights p.1 * p.2.confidence)) (0, 0)

/-- `final_score` (lines 401-405): `weighted_sum / total_confidence` when
    the denominator is positive, otherwise 0. -/
def final_score (signals : List (String × SigConf)) (weights : String → ℚ) : ℚ :=
  let s := weightedSums signals weights
  if 0 < s.2 then s.1 / s.2 else 0

/-- The combined signal `{signal, confidence}` returned at line 415. -/
structure CombinedSignal where
  signal : Signal
  confidence : ℚ
deriving DecidableEq

/-- `weighted_signal_combination` (lines 383-415): threshold the final
    score at ±0.2 and report `|final_score|` as the confidence. -/
def weighted_signal_combination (signals : List (String × SigConf))
    (weights : String → ℚ) : CombinedSignal :=
  let fs := final_score signals weights
  ⟨if 1/5 < fs then .bullish else if fs < -(1/5) then .bearish else .neutral, |fs|⟩


noncomputable section

/-- One OHLCV bar of `prices_df` (`open` is a reserved word in Lean, hence
    `openPrice`; it is not read by any strategy).  Volume is a real here
    because it is only used in real-valued ratios. -/
structure Bar where
  openPrice : ℝ
  high : ℝ
  low : ℝ
  close : ℝ
  volume : ℝ

/-- `prices_df["close"]` as a list of values. -/
def closes (bars : List Bar) : List ℝ := bars.map Bar.close

/-- `prices_df["volume"]` as a list of values. -/
def volumes (bars : List Bar) : List ℝ := bars.map Bar.volume

/-- Arithmetic mean (`Series.mean`, NaN-free input). -/
def meanR (xs : List ℝ) : ℝ := xs.sum / xs.length

/-- `np.std(xs)`: population standard deviation (NumPy delegates to
    `Series.std` with `ddof=0`; NaN entries are already removed by the
    caller). -/
def npStd (xs : List ℝ) : ℝ :=
  Real.sqrt ((xs.map (fun x => (x - meanR xs) ^ 2)).sum / xs.length)

/-- `np.subtract(price_series[lag:], price_series[:-lag])` for a pandas
    Series `price_series` (line 534).  An integer slice of a Series is
    positional but KEEPS the original index labels, and a binary NumPy
    ufunc applied to two Series ALIGNS them on those labels; the common
    labels are `lag ≤ i ≤ n-1-lag`, where both operands hold the original
    value `p i`, so every aligned difference is `p i - p i` (labels
    outside the overlap give NaN, which the NaN-skipping `Series.std`
    drops — hence they are omitted from this list). -/
def alignedLagDiffs (p : List ℝ) (lag : ℕ) : List ℝ :=
  ((List.range p.length).filter (fun i => lag ≤ i ∧ i ≤ p.length - 1 - lag)).map
    (fun i => p.getD i 0 - p.getD i 0)

/-- `max(1e-8, np.sqrt(np.std(...)))` (line 534).  When the overlap is
    empty `Series.std` is NaN and Python's `max(1e-8, nan)` returns its
    first argument `1e-8`; this coincides with the value of this
    definition on the empty list (`max 1e-8 (sqrt (sqrt (0/0))) = 1e-8`),
    so no separate NaN case is needed. -/
def tauOf (p : List ℝ) (lag : ℕ) : ℝ :=
  max 1e-8 (Real.sqrt (npStd (alignedLagDiffs p lag)))

/-- The slope returned by a degree-1 `np.polyfit` in exact arithmetic:
    the closed-form least-squares slope
    `(n·Σxy − Σx·Σy) / (n·Σx² − (Σx)²)`. -/
def polyfitSlope (pts : List (ℝ × ℝ)) : ℝ :=
  let n : ℝ := pts.length
  let sx := (pts.map Prod.fst).sum
  let sy := (pts.map Prod.snd).sum
  let sxy := (pts.map (fun q => q.1 * q.2)).sum
  let sxx := (pts.map (fun q => q.1 * q.1)).sum
  (n * sxy - sx * sy) / (n * sxx - sx * sx)

/-- `calculate_hurst_exponent` (lines 518-542): regress `log(tau)` on
    `log(lag)` for `lags = range(2, max_lag)` and return the slope.  The
    `except` fallback returning 0.5 is unreachable in exact arithmetic
    (the regression inputs are always finite and the lags distinct). -/
def calculate_hurst_exponent (p : List ℝ) (maxLag : ℕ) : ℝ :=
  let lags := List.range' 2 (maxLag - 2)
  polyfitSlope (lags.map (fun l : ℕ => (Real.log (l : ℝ), Real.log (tauOf p l))))


/-- A strategy's output `{signal, confidence}` (the `metrics` payload is
    reporting-only and does not feed any modelled decision, so it is
    omitted).  The confidence is a Python float that can be NaN — the
    trend strategy's ADX/100 is NaN on degenerate series — so it is an
    `Option ℝ` with `none` standing for a non-real float (NaN/±inf). -/
structure StrategySignal where
  signal : Signal
  confidence : Option ℝ

/-- `calculate_ema(df, window).iloc[-1]`: `ewm(span=window, adjust=False)`
    is the recursion `y_t = y_{t-1} + α (x_t - y_{t-1})` with
    `α = 2/(window+1)` seeded at the first value.  (On an empty frame the
    Python code would raise at `.iloc[-1]`; 0 here.) -/
def calculate_ema_last (w : ℕ) (xs : List ℝ) : ℝ :=
  match xs with
  | [] => 0
  | x :: rest => rest.foldl (fun acc y => acc + 2 / ((w : ℝ) + 1) * (y - acc)) x

/-- Row accessors for the ADX computation (indices are only evaluated
    inside the frame). -/
def highAt (bars : List Bar) (i : ℕ) : ℝ := (bars.getD i ⟨0, 0, 0, 0, 0⟩).high

def lowAt (bars : List Bar) (i : ℕ) : ℝ := (bars.getD i ⟨0, 0, 0, 0, 0⟩).low

def closeAt (bars : List Bar) (i : ℕ) : ℝ := (bars.getD i ⟨0, 0, 0, 0, 0⟩).close

/-- True range (lines 476-479): the row-wise max of `high-low`,
    `|high-close.shift()|`, `|low-close.shift()|`.  At row 0 the shifted
    values are NaN and `DataFrame.max(axis=1)` skips them, leaving
    `high-low`. -/
def trAt (bars : List Bar) (i : ℕ) : ℝ :=
  if i = 0 then highAt bars 0 - lowAt bars 0
  else max (highAt bars i - lowAt bars i)
    (max |highAt bars i - closeAt bars (i - 1)| |lowAt bars i - closeAt bars (i - 1)|)

/-- `plus_dm` (line 485): `np.where((up_move > down_move) & (up_move > 0), up_move, 0)`.
    At row 0 the shifted operands are NaN, every comparison with NaN is
    false, so the value is 0. -/
def plusDmAt (bars : List Bar) (i : ℕ) : ℝ :=
  if i = 0 then 0
  else
    let up := highAt bars i - highAt bars (i - 1)
    let down := lowAt bars (i - 1) - lowAt bars i
    if down < up ∧ 0 < up then up else 0

/-- `minus_dm` (line 486), symmetric to `plus_dm`. -/
def minusDmAt (bars : List Bar) (i : ℕ) : ℝ :=
  if i = 0 then 0
  else
    let up := highAt bars i - highAt bars (i - 1)
    let down := lowAt bars (i - 1) - lowAt bars i
    if up < down ∧ 0 < down then down else 0

/-- `Series.ewm(span=span).mean()` (adjust=True, the default) evaluated at
    position `t`: the `(1-α)^(t-i)`-weighted average of the first `t+1`
    entries, `α = 2/(span+1)`. -/
def ewmSpanMeanAt (span : ℕ) (x : ℕ → ℝ) (t : ℕ) : ℝ :=
  ((List.range (t + 1)).map (fun i => (1 - 2 / ((span : ℝ) + 1)) ^ (t - i) * x i)).sum /
    ((List.range (t + 1)).map (fun i => (1 - 2 / ((span : ℝ) + 1)) ^ (t - i))).sum

/-- `Series.ewm(span=span).mean()` over a series that may contain NaN
    (`none`) entries: pandas SKIPS NaN observations — with the default
    `ignore_na=False` a valid entry at position `i` still carries the
    absolute-position weight `(1-α)^(t-i)` — and the result at `t` is NaN
    only while no valid entry has been seen. -/
def ewmSpanMeanAtO (span : ℕ) (x : ℕ → Option ℝ) (t : ℕ) : Option ℝ :=
  let valid := (List.range (t + 1)).filter (fun i => (x i).isSome)
  if valid.isEmpty then none
  else some ((valid.map (fun i => (1 - 2 / ((span : ℝ) + 1)) ^ (t - i) * (x i).getD 0)).sum /
    (valid.map (fun i => (1 - 2 / ((span : ℝ) + 1)) ^ (t - i))).sum)

/-- `+di` (line 489) at position `t`:
    `100 * (plus_dm.ewm(span).mean() / tr.ewm(span).mean())`.  The
    `plus_dm` and `tr` columns are NaN-free, so their ewm means are plain
    reals; the float quotient is a real number unless the smoothed true
    range is 0, where the source computes `0/0 = NaN` (or `x/0 = ±inf`) —
    modelled as `none`. -/
def plusDiAt (bars : List Bar) (period t : ℕ) : Option ℝ :=
  if ewmSpanMeanAt period (trAt bars) t = 0 then none
  else some (100 * (ewmSpanMeanAt period (plusDmAt bars) t /
    ewmSpanMeanAt period (trAt bars) t))

/-- `-di` (line 490) at position `t`, symmetric to `+di`. -/
def minusDiAt (bars : List Bar) (period t : ℕ) : Option ℝ :=
  if ewmSpanMeanAt period (trAt bars) t = 0 then none
  else some (100 * (ewmSpanMeanAt period (minusDmAt bars) t /
    ewmSpanMeanAt period (trAt bars) t))

/-- `dx` (line 491) at position `t`: `100·|+di − −di| / (+di + −di)`.
    NaN when either di is non-real, or when the denominator is 0 (the
    di values are then both 0, so the float value is `0/0 = NaN`). -/
def dxAt (bars : List Bar) (period t : ℕ) : Option ℝ :=
  match plusDiAt bars period t, minusDiAt bars period t with
  | some p, some m =>
      if p + m = 0 then none
      else some (100 * |p - m| / (p + m))
  | _, _ => none

/-- `adx` (line 492) at position `t`: `dx.ewm(span=period).mean()`, with
    pandas' NaN-skipping ewm semantics. -/
def adxAt (bars : List Bar) (period t : ℕ) : Option ℝ :=
  ewmSpanMeanAtO period (dxAt bars period) t

/-- The branch logic of `calculate_trend_signals` (lines 190-198):
    bullish when EMA8 > EMA21 > EMA55 at the latest bar, bearish when both
    comparisons fail, neutral (confidence 0.5) otherwise; the non-neutral
    confidence is ADX/100, which is NaN (`none`) when the ADX itself is
    NaN. -/
def trendDecision (e8 e21 e55 : ℝ) (trendStrength : Option ℝ) : StrategySignal :=
  if e21 < e8 ∧ e55 < e21 then ⟨.bullish, trendStrength⟩
  else if ¬ e21 < e8 ∧ ¬ e55 < e21 then ⟨.bearish, trendStrength⟩
  else ⟨.neutral, some (1 / 2)⟩

/-- `calculate_trend_signals` (lines 171-207). -/
def calculate_trend_signals (bars : List Bar) : StrategySignal :=
  trendDecision (calculate_ema_last 8 (closes bars)) (calculate_ema_last 21 (closes bars))
    (calculate_ema_last 55 (closes bars))
    ((adxAt bars 14 (bars.length - 1)).map (fun a => a / 100))

/-- A pandas Series with possible NaN entries (`none`). -/
def toSeries (xs : List ℝ) : List (Option ℝ) := xs.map some

/-- The window of `Series.rolling(w)` ending at position `i`: defined only
    when the window is complete (`min_periods = w`, pandas default for
    `rolling(w)`) and free of NaN. -/
def windowAt (w : ℕ) (s : List (Option ℝ)) (i : ℕ) : Option (List ℝ) :=
  let vals := (List.range w).map (fun j => s.getD (i + 1 - w + j) none)
  if w ≤ i + 1 ∧ vals.all Option.isSome then some (vals.map (fun v => v.getD 0)) else none

/-- `Series.rolling(w).agg(f)` as a series. -/
def rollingApply (w : ℕ) (f : List ℝ → ℝ) (s : List (Option ℝ)) : List (Option ℝ) :=
  (List.range s.length).map (fun i => (windowAt w s i).map f)

/-- `.iloc[-1]` of a series (`none` for an empty series, where pandas
    would raise, or a NaN last entry). -/
def seriesLast (s : List (Option ℝ)) : Option ℝ := s.getLast?.join

/-- NaN-propagating binary arithmetic on scalars read from series. -/
def liftO2 (f : ℝ → ℝ → ℝ) : Option ℝ → Option ℝ → Option ℝ
  | some x, some y => some (f x y)
  | _, _ => none

/-- `Series.pct_change()`: NaN at position 0, `(x_i - x_{i-1})/x_{i-1}`
    after. -/
def pct_change (s : List (Option ℝ)) : List (Option ℝ) :=
  (List.range s.length).map (fun i =>
    if i = 0 then none
    else
      match s.getD (i - 1) none, s.getD i none with
      | some a, some b => some ((b - a) / a)
      | _, _ => none)

/-- `Series.rolling(w).std()`: sample standard deviation (ddof = 1). -/
def sampleStd (xs : List ℝ) : ℝ :=
  Real.sqrt ((xs.map (fun x => (x - meanR xs) ^ 2)).sum / ((xs.length : ℝ) - 1))

/-- `Series.rolling(w).skew()`: the adjusted Fisher-Pearson sample
    skewness `√(n(n-1))/(n-2) · m₃/m₂^{3/2}` (only compared against ±1 in
    the modelled decisions, never read as a value). -/
def sampleSkew (xs : List ℝ) : ℝ :=
  let n : ℝ := xs.length
  let m := meanR xs
  let m2 := (xs.map (fun x => (x - m) ^ 2)).sum / n
  let m3 := (xs.map (fun x => (x - m) ^ 3)).sum / n
  Real.sqrt (n * (n - 1)) / (n - 2) * (m3 / Real.sqrt (m2 ^ 3))

/-- The branch logic of `calculate_mean_reversion_signals`
    (lines 230-238); an undefined z-score or Bollinger position (NaN)
    fails every comparison and falls to neutral. -/
def meanReversionDecision (zLast priceVsBb : Option ℝ) : StrategySignal :=
  match zLast, priceVsBb with
  | some z, some pvb =>
      if z < -2 ∧ pvb < 0.2 then ⟨.bullish, some (min (|z| / 4) 1)⟩
      else if 2 < z ∧ 0.8 < pvb then ⟨.bearish, some (min (|z| / 4) 1)⟩
      else ⟨.neutral, some (1 / 2)⟩
  | _, _ => ⟨.neutral, some (1 / 2)⟩

/-- `calculate_mean_reversion_signals` (lines 210-249).  The z-score
    series is element-wise `(close - ma50)/std50`; only its last entry is
    read, which equals the element-wise combination of the last entries.
    `price_vs_bb` is computed directly from `.iloc[-1]` values
    (line 227).  The RSI columns feed only the metrics payload. -/
def calculate_mean_reversion_signals (bars : List Bar) : StrategySignal :=
  let closesS := toSeries (closes bars)
  let zLast := liftO2 (fun a b => a / b)
    (liftO2 (fun a b => a - b) (seriesLast closesS)
      (seriesLast (rollingApply 50 meanR closesS)))
    (seriesLast (rollingApply 50 sampleStd closesS))
  let smaLast := seriesLast (rollingApply 20 meanR closesS)
  let stdLast := seriesLast (rollingApply 20 sampleStd closesS)
  let bbUpper := liftO2 (fun a b => a + 2 * b) smaLast stdLast
  let bbLower := liftO2 (fun a b => a - 2 * b) smaLast stdLast
  let priceVsBb := liftO2 (fun a b => a / b)
    (liftO2 (fun a b => a - b) (seriesLast closesS) bbLower)
    (liftO2 (fun a b => a - b) bbUpper bbLower)
  meanReversionDecision zLast priceVsBb

/-- The branch logic of `calculate_momentum_signals` (lines 275-283). -/
def momentumDecision (score volumeMomentum : Option ℝ) : StrategySignal :=
  match score, volumeMomentum with
  | some s, some vm =>
      if 0.05 < s ∧ 1 < vm then ⟨.bullish, some (min (|s| * 5) 1)⟩
      else if s < -0.05 ∧ 1 < vm then ⟨.bearish, some (min (|s| * 5) 1)⟩
      else ⟨.neutral, some (1 / 2)⟩
  | _, _ => ⟨.neutral, some (1 / 2)⟩

/-- `calculate_momentum_signals` (lines 252-294).  The momentum score is
    the last entry of `0.4·mom_1m + 0.3·mom_3m + 0.3·mom_6m` (rolling
    sums of `pct_change` returns over 21/63/126 bars); volume momentum is
    the last volume over its 21-bar rolling mean. -/
def calculate_momentum_signals (bars : List Bar) : StrategySignal :=
  let retsS := pct_change (toSeries (closes bars))
  let score :=
    match seriesLast (rollingApply 21 List.sum retsS),
        seriesLast (rollingApply 63 List.sum retsS),
        seriesLast (rollingApply 126 List.sum retsS) with
    | some a, some b, some c => some (0.4 * a + 0.3 * b + 0.3 * c)
    | _, _, _ => none
  let volS := toSeries (volumes bars)
  let volumeMomentum := liftO2 (fun a b => a / b) (seriesLast volS)
    (seriesLast (rollingApply 21 meanR volS))
  momentumDecision score volumeMomentum

/-- The branch logic of `calculate_volatility_signals` (lines 322-330). -/
def volatilityDecision (volRegime volZ : Option ℝ) : StrategySignal :=
  match volRegime, volZ with
  | some vr, some vz =>
      if vr < 0.8 ∧ vz < -1 then ⟨.bullish, some (min (|vz| / 3) 1)⟩
      else if 1.2 < vr ∧ 1 < vz then ⟨.bearish, some (min (|vz| / 3) 1)⟩
      else ⟨.neutral, some (1 / 2)⟩
  | _, _ => ⟨.neutral, some (1 / 2)⟩

/-- `calculate_volatility_signals` (lines 297-341).  `hist_vol` is the
    21-bar rolling std of returns times √252; the regime is
    `hist_vol/vol_ma` and the z-score `(hist_vol - vol_ma)/std(hist_vol)`
    over 63 bars, all read at the last position.  The ATR ratio feeds only
    the metrics payload. -/
def calculate_volatility_signals (bars : List Bar) : StrategySignal :=
  let retsS := pct_change (toSeries (closes bars))
  let histVol := (rollingApply 21 sampleStd retsS).map
    (Option.map (fun v => v * Real.sqrt 252))
  let volMaLast := seriesLast (rollingApply 63 meanR histVol)
  let volRegime := liftO2 (fun a b => a / b) (seriesLast histVol) volMaLast
  let volZ := liftO2 (fun a b => a / b)
    (liftO2 (fun a b => a - b) (seriesLast histVol) volMaLast)
    (seriesLast (rollingApply 63 sampleStd histVol))
  volatilityDecision volRegime volZ

/-- The branch logic of `calculate_stat_arb_signals` (lines 361-370); an
    undefined (NaN) skew fails every comparison and falls to neutral. -/
def statArbDecision (hurst : ℝ) (skewLast : Option ℝ) : StrategySignal :=
  match skewLast with
  | some sk =>
      if hurst < 0.4 ∧ 1 < sk then ⟨.bullish, some ((0.5 - hurst) * 2)⟩
      else if hurst < 0.4 ∧ sk < -1 then ⟨.bearish, some ((0.5 - hurst) * 2)⟩
      else ⟨.neutral, some (1 / 2)⟩
  | none => ⟨.neutral, some (1 / 2)⟩

/-- `calculate_stat_arb_signals` (lines 344-380): Hurst exponent of the
    close series and 63-bar rolling skew of returns (the kurtosis column
    feeds only the metrics payload). -/
def calculate_stat_arb_signals (bars : List Bar) : StrategySignal :=
  statArbDecision (calculate_hurst_exponent (closes bars) 20)
    (seriesLast (rollingApply 63 sampleSkew (pct_change (toSeries (closes bars)))))

/-- The confidence is a real number lying in [0, 1]; a NaN confidence
    fails this. -/
def confIn01 (o : Option ℝ) : Prop :=
  match o with
  | some c => 0 ≤ c ∧ c ≤ 1
  | none => False

/-- The confidence lies in [0, 1] whenever it is a real number (NaN is
    allowed). -/
def confIn01OrNaN (o : Option ℝ) : Prop :=
  match o with
  | some c => 0 ≤ c ∧ c ≤ 1
  | none => True

end

theorem compute_eq_of_mem {tickers : List String}
    {current_prices : String → Option ℚ} {max_shares : String → Option ℤ}
    {portfolio : Portfolio} {t : String} (ht : t ∈ tickers) :
    compute_allowed_actions tickers current_prices max_shares portfolio t =
      some (pruneActions (rawActions ((current_prices t).getD 0)
        (((pfPositions portfolio t).getD ⟨some 0, some 0⟩).long.getD 0)
        (((pfPositions portfolio t).getD ⟨some 0, some 0⟩).short.getD 0)
        ((max_shares t).getD 0) (pfCash portfolio) (pfMarginRequirement portfolio)
        (pfMarginUsed portfolio) (pfEquity portfolio))) := by
  simp [compute_allowed_actions, ht]

theorem pruneActions_hold (raw : Action → ℤ) : pruneActions raw .hold = some 0 := rfl

theorem posEntry_pruneActions (raw : Action → ℤ) (a : Action) (ha : a ≠ .hold) :
    posEntry (pruneActions raw a) = true := by
  simp only [pruneActions, if_neg ha]
  by_cases h : 0 < raw a
  · simp [posEntry, h]
  · simp [posEntry, h]


/-- C3 (counterexample): on Scenario B — portfolio `{cash: 10000,
    positions: {AAPL: {long: 0, short: 0}}}`, price 100, risk-limit max
    shares 50 — the returned map for AAPL also contains `short: 50`
    (margin_requirement defaults to 0.5 and equity defaults to cash, so
    short capacity is min(50, floor(20000/100)) = 50), contradicting the
    claim that no key besides `hold` and `buy` is present. -/
theorem compute_allowed_scenario_b_has_short :
    (compute_allowed_actions ["AAPL"] (fun t => if t = "AAPL" then some 100 else none)
      (fun t => if t = "AAPL" then some 50 else none)
      ⟨some 10000, some (fun t => if t = "AAPL" then some ⟨some 0, some 0⟩ else none),
        none, none, none⟩ "AAPL").map (fun f => f .short) = some (some 50) := by
  simp [compute_allowed_actions, pruneActions, rawActions,
    pfCash, pfPositions, pfMarginRequirement, pfMarginUsed, pfEquity, Option.getD]
  norm_num

/-- C3 (amended): on Scenario B the returned map for AAPL is exactly
    `{hold: 0, buy: 50, short: 50}` — buy is capped at 50 by the risk
    limit (cash would allow 100), and short is also capped at 50. -/
theorem compute_allowed_scenario_b :
    (compute_allowed_actions ["AAPL"] (fun t => if t = "AAPL" then some 100 else none)
      (fun t => if t = "AAPL" then some 50 else none)
      ⟨some 10000, some (fun t => if t = "AAPL" then some ⟨some 0, some 0⟩ else none),
        none, none, none⟩ "AAPL").map
      (fun f => (f .hold, f .buy, f .sell, f .short, f .cover)) =
      some (some 0, some 50, none, some 50, none) := by
  simp [compute_allowed_actions, pruneActions, rawActions,
    pfCash, pfPositions, pfMarginRequirement, pfMarginUsed, pfEquity, Option.getD]
  norm_num

/-- C4: `compute_allowed_actions` is a pure function of its four
    arguments — two calls on identical inputs return identical outputs
    (the embedding is a mathematical function, with no hidden state,
    randomness, time dependence or I/O). -/
theorem compute_allowed_actions_deterministic
    (tk1 tk2 : List String) (pr1 pr2 : String → Option ℚ)
    (ms1 ms2 : String → Option ℤ) (pf1 pf2 : Portfolio)
    (htk : tk1 = tk2) (hpr : pr1 = pr2) (hms : ms1 = ms2) (hpf : pf1 = pf2) :
    compute_allowed_actions tk1 pr1 ms1 pf1 = compute_allowed_actions tk2 pr2 ms2 pf2 := by
  rw [htk, hpr, hms, hpf]

/-- C4 witness: the determinism theorem applied at a concrete input. -/
theorem compute_allowed_actions_deterministic_witness :
    compute_allowed_actions ["AAPL"] (fun _ => some 10) (fun _ => some 3)
        ⟨some 100, none, none, none, none⟩ =
      compute_allowed_actions ["AAPL"] (fun _ => some 10) (fun _ => some 3)
        ⟨some 100, none, none, none, none⟩ :=
  compute_allowed_actions_deterministic _ _ _ _ _ _ _ _ rfl rfl rfl rfl

/-- C8: for every input and every ticker of the request list, the
    returned allowed-action map contains `hold` with value 0 and no other
    action key with a non-positive value (every non-hold entry is
    strictly positive; zero-capacity actions are omitted). -/
theorem compute_allowed_actions_pruned (tickers : List String)
    (current_prices : String → Option ℚ) (max_shares : String → Option ℤ)
    (portfolio : Portfolio) (t : String) (ht : t ∈ tickers) :
    (compute_allowed_actions tickers current_prices max_shares portfolio t).map prunedOk =
      some true := by
  rw [compute_eq_of_mem ht]
  simp [prunedOk, pruneActions_hold, posEntry_pruneActions]

/-- C8 witness: the pruning invariant evaluated at a concrete input. -/
theorem compute_allowed_actions_pruned_witness :
    ("AAPL" ∈ ["AAPL"]) ∧
      (compute_allowed_actions ["AAPL"] (fun _ => some 10) (fun _ => some 3)
        ⟨some 100, none, none, none, none⟩ "AAPL").map prunedOk = some true :=
  ⟨by decide, compute_allowed_actions_pruned _ _ _ _ _ (by decide)⟩


/-- C7 (counterexample): with margin_requirement = 0, risk-limit max
    shares 5 but current price 0, the short action is absent (capacity 0),
    not equal to the risk-limit max shares 5: the zero-margin branch is
    only reached when the price is positive. -/
theorem compute_allowed_short_zero_price :
    (compute_allowed_actions ["A"] (fun t => if t = "A" then some 0 else none)
      (fun t => if t = "A" then some 5 else none)
      ⟨some 1000, none, some 0, some 0, some 1000000⟩ "A").map
      (fun f => f .short) = some none := by
  simp [compute_allowed_actions, pruneActions, rawActions,
    pfCash, pfPositions, pfMarginRequirement, pfMarginUsed, pfEquity, Option.getD]

/-- Helper: reading a pruned non-hold entry with default 0 gives back the
    raw capacity whenever that capacity is nonnegative. -/
theorem pruneActions_getD (raw : Action → ℤ) (a : Action) (ha : a ≠ .hold)
    (h0 : 0 ≤ raw a) : (pruneActions raw a).getD 0 = raw a := by
  simp only [pruneActions, if_neg ha]
  by_cases h : 0 < raw a
  · simp [h]
  · simp [h, (le_antisymm (not_lt.mp h) h0).symm]

/-- C7 (amended): for a ticker with positive current price and
    nonnegative risk-limit max shares, the short capacity (reading an
    absent key as 0) is: the risk-limit max shares when
    margin_requirement ≤ 0 — independent of equity and margin_used —
    and min(max shares, floor(max(0, equity/margin_requirement −
    margin_used) / price)) otherwise.  With price ≤ 0 (or a negative
    risk limit) the short key is simply absent. -/
theorem compute_allowed_short_capacity (tickers : List String)
    (current_prices : String → Option ℚ) (max_shares : String → Option ℤ)
    (portfolio : Portfolio) (t : String) (p : ℚ) (q : ℤ) (ht : t ∈ tickers)
    (hp : current_prices t = some p) (hp0 : 0 < p)
    (hq : max_shares t = some q) (hq0 : 0 ≤ q) :
    (compute_allowed_actions tickers current_prices max_shares portfolio t).map
        (fun f => (f .short).getD 0) =
      some (if pfMarginRequirement portfolio ≤ 0 then q
            else min q ⌊(max 0 (pfEquity portfolio / pfMarginRequirement portfolio -
              pfMarginUsed portfolio)) / p⌋) := by
  rw [compute_eq_of_mem ht]
  simp only [hp, hq, Option.getD_some, Option.map_some', Option.some_inj]
  have hfv : (0:ℤ) ≤ ⌊(max 0 (pfEquity portfolio / pfMarginRequirement portfolio -
      pfMarginUsed portfolio)) / p⌋ :=
    Int.floor_nonneg.mpr (div_nonneg (le_max_left 0 _) (le_of_lt hp0))
  have hraw : rawActions p
      (((pfPositions portfolio t).getD ⟨some 0, some 0⟩).long.getD 0)
      (((pfPositions portfolio t).getD ⟨some 0, some 0⟩).short.getD 0)
      q (pfCash portfolio) (pfMarginRequirement portfolio)
      (pfMarginUsed portfolio) (pfEquity portfolio) .short =
      (if pfMarginRequirement portfolio ≤ 0 then q
       else min q ⌊(max 0 (pfEquity portfolio / pfMarginRequirement portfolio -
         pfMarginUsed portfolio)) / p⌋) := by
    by_cases hqpos : 0 < q
    · simp only [rawActions, if_pos (And.intro hp0 hqpos)]
      by_cases hmr : pfMarginRequirement portfolio ≤ 0
      · rw [if_pos hmr, if_pos hmr]
      · rw [if_neg hmr, if_neg hmr, max_eq_right (le_min hq0 hfv)]
    · have hqz : q = 0 := le_antisymm (not_lt.mp hqpos) hq0
      subst hqz
      simp only [rawActions, lt_irrefl, and_false, if_false]
      by_cases hmr : pfMarginRequirement portfolio ≤ 0
      · rw [if_pos hmr]
      · rw [if_neg hmr, min_eq_left hfv]
  have hnn : 0 ≤ (if pfMarginRequirement portfolio ≤ 0 then q
       else min q ⌊(max 0 (pfEquity portfolio / pfMarginRequirement portfolio -
         pfMarginUsed portfolio)) / p⌋) := by
    by_cases hmr : pfMarginRequirement portfolio ≤ 0
    · rw [if_pos hmr]; exact hq0
    · rw [if_neg hmr]; exact le_min hq0 hfv
  rw [pruneActions_getD _ _ (by decide) (hraw ▸ hnn), hraw]

/-- C7 witness: the short-capacity formula evaluated on a concrete input
    (price 100, max shares 50, default margin requirement). -/
theorem compute_allowed_short_capacity_witness :
    ("AAPL" ∈ ["AAPL"] ∧ (0:ℚ) < 100 ∧ (0:ℤ) ≤ 50) ∧
    (compute_allowed_actions ["AAPL"] (fun t => if t = "AAPL" then some 100 else none)
        (fun t => if t = "AAPL" then some 50 else none)
        ⟨some 10000, none, none, none, none⟩ "AAPL").map
        (fun f => (f .short).getD 0) =
      some (if pfMarginRequirement ⟨some 10000, none, none, none, none⟩ ≤ 0 then 50
            else min 50 ⌊(max 0 (pfEquity ⟨some 10000, none, none, none, none⟩ /
              pfMarginRequirement ⟨some 10000, none, none, none, none⟩ -
              pfMarginUsed ⟨some 10000, none, none, none, none⟩)) / (100:ℚ)⌋) :=
  ⟨⟨by decide, by norm_num, by norm_num⟩,
    compute_allowed_short_capacity _ _ _ _ "AAPL" 100 50 (by decide) (by norm_num)
      (by norm_num) (by norm_num) (by norm_num)⟩

/-- C10 (counterexample): a snapshot stating only cash and positions does
    NOT always permit shorting a ticker with positive price and positive
    risk-limit max shares: with cash 10 and price 100 the margin capacity
    floor((10/0.5)/100) is 0, so the short key is absent. -/
theorem compute_allowed_defaults_no_short :
    (compute_allowed_actions ["A"] (fun t => if t = "A" then some 100 else none)
      (fun t => if t = "A" then some 5 else none)
      ⟨some 10, some (fun _ => none), none, none, none⟩ "A").map
      (fun f => f .short) = some none := by
  simp [compute_allowed_actions, pruneActions, rawActions,
    pfCash, pfPositions, pfMarginRequirement, pfMarginUsed, pfEquity, Option.getD]
  norm_num

/-- C10 (amended): when the snapshot states only cash and positions, the
    solver fills in margin_requirement = 0.5, margin_used = 0 and
    equity = cash; consequently, for a ticker with positive price p,
    positive risk-limit max shares q, and enough cash (p ≤ 2·cash), the
    short capacity is exactly min(q, floor(2·cash / p)) — shorting is
    permitted; with 2·cash < p the short key is absent instead. -/
theorem compute_allowed_defaults_short (tickers : List String)
    (current_prices : String → Option ℚ) (max_shares : String → Option ℤ)
    (c : ℚ) (P : String → Option Position) (t : String) (p : ℚ) (q : ℤ)
    (ht : t ∈ tickers) (hp : current_prices t = some p) (hp0 : 0 < p)
    (hq : max_shares t = some q) (hq0 : 0 < q) (hc : p ≤ 2 * c) :
    (pfMarginRequirement ⟨some c, some P, none, none, none⟩ = 1/2 ∧
      pfEquity ⟨some c, some P, none, none, none⟩ = c ∧
      pfMarginUsed ⟨some c, some P, none, none, none⟩ = 0 ∧
      pfCash ⟨some c, some P, none, none, none⟩ = c) ∧
    (compute_allowed_actions tickers current_prices max_shares
        ⟨some c, some P, none, none, none⟩ t).map (fun f => f .short) =
      some (some (min q ⌊2 * c / p⌋)) := by
  refine ⟨⟨rfl, rfl, rfl, rfl⟩, ?_⟩
  rw [compute_eq_of_mem ht]
  simp only [hp, hq, Option.getD_some, Option.map_some', Option.some_inj]
  have hfloor : (1:ℤ) ≤ ⌊2 * c / p⌋ := by
    rw [Int.le_floor]
    push_cast
    exact (one_le_div hp0).mpr hc
  have hmin : 0 < min q ⌊2 * c / p⌋ := lt_min hq0 (lt_of_lt_of_le zero_lt_one hfloor)
  have hraw : rawActions p
      (((pfPositions ⟨some c, some P, none, none, none⟩ t).getD ⟨some 0, some 0⟩).long.getD 0)
      (((pfPositions ⟨some c, some P, none, none, none⟩ t).getD ⟨some 0, some 0⟩).short.getD 0)
      q (pfCash ⟨some c, some P, none, none, none⟩)
      (pfMarginRequirement ⟨some c, some P, none, none, none⟩)
      (pfMarginUsed ⟨some c, some P, none, none, none⟩)
      (pfEquity ⟨some c, some P, none, none, none⟩) .short = min q ⌊2 * c / p⌋ := by
    simp only [rawActions, if_pos (And.intro hp0 hq0)]
    have hmr : ¬ (pfMarginRequirement ⟨some c, some P, none, none, none⟩ ≤ 0) := by
      simp only [pfMarginRequirement, Option.getD_none]
      norm_num
    rw [if_neg hmr]
    have h2c : pfEquity ⟨some c, some P, none, none, none⟩ /
        pfMarginRequirement ⟨some c, some P, none, none, none⟩ -
        pfMarginUsed ⟨some c, some P, none, none, none⟩ = 2 * c := by
      simp only [pfEquity, pfMarginRequirement, pfMarginUsed, pfCash, Option.getD_none,
        Option.getD_some]
      ring
    rw [h2c]
    have h2cpos : (0:ℚ) ≤ 2 * c := le_of_lt (lt_of_lt_of_le hp0 hc)
    rw [max_eq_right h2cpos, max_eq_right (le_of_lt hmin)]
  rw [pruneActions, if_neg (by decide : Action.short ≠ Action.hold), hraw, if_pos hmin]

/-- C10 witness: with cash 100, price 100, max shares 5, the defaults
    yield short capacity min(5, floor(200/100)) = 2. -/
theorem compute_allowed_defaults_short_witness :
    ("A" ∈ ["A"] ∧ (0:ℚ) < 100 ∧ (0:ℤ) < 5 ∧ (100:ℚ) ≤ 2 * 100) ∧
    (pfMarginRequirement ⟨some 100, some (fun _ => none), none, none, none⟩ = 1/2 ∧
      pfEquity ⟨some 100, some (fun _ => none), none, none, none⟩ = 100 ∧
      pfMarginUsed ⟨some 100, some (fun _ => none), none, none, none⟩ = 0 ∧
      pfCash ⟨some 100, some (fun _ => none), none, none, none⟩ = 100) ∧
    (compute_allowed_actions ["A"] (fun t => if t = "A" then some 100 else none)
        (fun t => if t = "A" then some 5 else none)
        ⟨some 100, some (fun _ => none), none, none, none⟩ "A").map (fun f => f .short) =
      some (some (min 5 ⌊2 * (100:ℚ) / 100⌋)) :=
  ⟨⟨by decide, by norm_num, by norm_num, by norm_num⟩,
    compute_allowed_defaults_short ["A"] _ _ 100 _ "A" 100 5 (by decide) (by norm_num)
      (by norm_num) (by norm_num) (by norm_num) (by norm_num)⟩


theorem mem_of_mem_tickersForLLM {tickers : List String}
    {current_prices : String → Option ℚ} {max_shares : String → Option ℤ}
    {portfolio : Portfolio} {t : String}
    (h : t ∈ tickersForLLM tickers current_prices max_shares portfolio) : t ∈ tickers :=
  List.mem_of_mem_filter h

theorem decisionOk_of_hold {tickers : List String}
    {current_prices : String → Option ℚ} {max_shares : String → Option ℤ}
    {portfolio : Portfolio} {t : String} (ht : t ∈ tickers)
    (d : Decision) (ha : d.action = .hold) (hq : d.quantity ≤ 0) :
    decisionOk (compute_allowed_actions tickers current_prices max_shares portfolio t) d = true := by
  rw [compute_eq_of_mem ht]
  obtain ⟨a, qty, conf, r⟩ := d
  simp only at ha hq
  subst ha
  simp [decisionOk, pruneActions_hold, hq]

theorem prefilledDecisions_ok (tickers : List String)
    (current_prices : String → Option ℚ) (max_shares : String → Option ℤ)
    (portfolio : Portfolio) (t : String) :
    decisionOkO (compute_allowed_actions tickers current_prices max_shares portfolio t)
      (prefilledDecisions tickers current_prices max_shares portfolio t) = true := by
  unfold prefilledDecisions
  by_cases h : t ∈ tickers ∧
      onlyHoldOpt (compute_allowed_actions tickers current_prices max_shares portfolio t)
  · rw [if_pos h]
    exact decisionOk_of_hold h.1 prefillDecision rfl le_rfl
  · rw [if_neg h]
    rfl

theorem mergedDecisions_ok (tickers : List String)
    (current_prices : String → Option ℚ) (max_shares : String → Option ℤ)
    (portfolio : Portfolio) (llm : Option (String → Option Decision))
    (hv : ∀ g, llm = some g → ∀ s,
      decisionOkO (compute_allowed_actions tickers current_prices max_shares portfolio s)
        (g s) = true) (t : String) :
    decisionOkO (compute_allowed_actions tickers current_prices max_shares portfolio t)
      (mergedDecisions tickers current_prices max_shares portfolio llm t) = true := by
  unfold mergedDecisions
  cases hout : llmOutDecisions tickers current_prices max_shares portfolio llm t with
  | some d =>
      cases llm with
      | some g =>
          have h := hv g rfl t
          have hg : g t = some d := hout
          rw [hg] at h
          simpa using h
      | none =>
          have hg : defaultFactoryDecisions tickers current_prices max_shares portfolio t =
              some d := hout
          unfold defaultFactoryDecisions at hg
          by_cases htm : t ∈ tickersForLLM tickers current_prices max_shares portfolio
          · rw [if_pos htm] at hg
            have hd : d = defaultDecision := by
              exact (Option.some_inj.mp hg).symm
            subst hd
            simpa using decisionOk_of_hold (mem_of_mem_tickersForLLM htm) defaultDecision rfl le_rfl
          · rw [if_neg htm] at hg
            have h := prefilledDecisions_ok tickers current_prices max_shares portfolio t
            rw [hg] at h
            simpa using h
  | none =>
      have h := prefilledDecisions_ok tickers current_prices max_shares portfolio t
      exact h

theorem applyNeutralOverride_cases (sigs : List (String × SigEntry)) (d : Decision) :
    applyNeutralOverride sigs d = d ∨
      ((applyNeutralOverride sigs d).action = .hold ∧
        (applyNeutralOverride sigs d).quantity = 0) := by
  simp only [applyNeutralOverride]
  split
  · split
    · right; exact ⟨rfl, rfl⟩
    · left; rfl
  · left; rfl

theorem applyNeutralOverride_of_hold (sigs : List (String × SigEntry)) (d : Decision)
    (ha : d.action = .hold) : applyNeutralOverride sigs d = d := by
  simp only [applyNeutralOverride]
  split
  · rw [if_neg (by simp [ha])]
  · rfl

theorem applyNeutralOverride_action (sigs : List (String × SigEntry)) (d : Decision)
    (n : ℕ) (hc : countSignals sigs = (0, 0, n)) (hn : 0 < n) :
    (applyNeutralOverride sigs d).action = .hold := by
  have hcond : 0 < (countSignals sigs).1 + (countSignals sigs).2.1 + (countSignals sigs).2.2 ∧
      (countSignals sigs).2.2 =
        (countSignals sigs).1 + (countSignals sigs).2.1 + (countSignals sigs).2.2 ∧
      (countSignals sigs).1 = 0 ∧ (countSignals sigs).2.1 = 0 := by
    rw [hc]
    exact ⟨by simpa using hn, by simp, rfl, rfl⟩
  simp only [applyNeutralOverride]
  rw [if_pos hcond]
  by_cases hd : d.action ≠ .hold
  · rw [if_pos hd]
  · rw [if_neg hd]
    exact not_not.mp hd

/-- C1 (amended): the bounds invariant holds conditionally.  If the LLM
    call fails entirely, every ticker sent to the LLM receives the
    default decision `{hold, 0, 0, "Default decision: hold"}` (second
    conjunct), and all reconciled decisions then respect the allowed
    sets.  If the call succeeds, the proposed decisions are merged
    WITHOUT per-decision validation, so the bounds hold only under the
    hypothesis that every proposed entry is already structurally valid
    (action present in that ticker's allowed set, quantity at most the
    bound); a missing or invalid proposed entry is not replaced by the
    default. -/
theorem generate_trading_decision_bounds (tickers : List String)
    (signals_by_ticker : String → List (String × SigEntry))
    (current_prices : String → Option ℚ) (max_shares : String → Option ℤ)
    (portfolio : Portfolio) (llm : Option (String → Option Decision))
    (hv : ∀ g, llm = some g → ∀ s,
      decisionOkO (compute_allowed_actions tickers current_prices max_shares portfolio s)
        (g s) = true) :
    (∀ t, decisionOkO (compute_allowed_actions tickers current_prices max_shares portfolio t)
        (generate_trading_decision tickers signals_by_ticker current_prices max_shares
          portfolio llm t) = true) ∧
    (llm = none → ∀ t, t ∈ tickersForLLM tickers current_prices max_shares portfolio →
        generate_trading_decision tickers signals_by_ticker current_prices max_shares
          portfolio llm t = some defaultDecision) := by
  constructor
  · intro t
    unfold generate_trading_decision
    by_cases hemp : (tickersForLLM tickers current_prices max_shares portfolio).isEmpty
    · rw [if_pos hemp]
      exact prefilledDecisions_ok tickers current_prices max_shares portfolio t
    · rw [if_neg hemp]
      by_cases hmem : t ∈ tickersForLLM tickers current_prices max_shares portfolio
      · rw [if_pos hmem]
        cases hm : mergedDecisions tickers current_prices max_shares portfolio llm t with
        | none => rfl
        | some d =>
            have hok : decisionOk
                (compute_allowed_actions tickers current_prices max_shares portfolio t) d = true := by
              have h := mergedDecisions_ok tickers current_prices max_shares portfolio llm hv t
              rw [hm] at h
              simpa using h
            simp only [Option.map_some']
            by_cases hsig : (signals_by_ticker t).isEmpty
            · rw [if_pos hsig]
              simpa using hok
            · rw [if_neg hsig]
              rcases applyNeutralOverride_cases (signals_by_ticker t) d with heq | ⟨ha, hq⟩
              · rw [heq]
                simpa using hok
              · simpa using decisionOk_of_hold (mem_of_mem_tickersForLLM hmem) _ ha (le_of_eq hq)
      · rw [if_neg hmem]
        exact mergedDecisions_ok tickers current_prices max_shares portfolio llm hv t
  · intro hnone t htm
    subst hnone
    unfold generate_trading_decision
    have hne : ¬ (tickersForLLM tickers current_prices max_shares portfolio).isEmpty := by
      intro h
      rw [List.isEmpty_iff] at h
      rw [h] at htm
      exact (List.not_mem_nil t) htm
    rw [if_neg hne, if_pos htm]
    have hm : mergedDecisions tickers current_prices max_shares portfolio none t =
        some defaultDecision := by
      simp [mergedDecisions, llmOutDecisions, defaultFactoryDecisions, htm]
    rw [hm]
    simp only [Option.map_some']
    by_cases hsig : (signals_by_ticker t).isEmpty
    · rw [if_pos hsig]
    · rw [if_neg hsig]
      rw [applyNeutralOverride_of_hold (signals_by_ticker t) defaultDecision rfl]

/-- C2 (amended): for a ticker among `tickers_for_llm` whose counted
    signals are 100% neutral (bullish = bearish = 0 < neutral), the final
    reconciled action is always `hold`.  The quantity is forced to 0 and
    the reasoning records the override only when the merged action was
    not already `hold`; a proposed `hold` keeps its quantity and
    reasoning unchanged, and tickers not sent to the LLM are skipped by
    the override pass. -/
theorem generate_trading_decision_neutral_hold (tickers : List String)
    (signals_by_ticker : String → List (String × SigEntry))
    (current_prices : String → Option ℚ) (max_shares : String → Option ℤ)
    (portfolio : Portfolio) (llm : Option (String → Option Decision))
    (t : String) (n : ℕ)
    (htm : t ∈ tickersForLLM tickers current_prices max_shares portfolio)
    (hc : countSignals (signals_by_ticker t) = (0, 0, n)) (hn : 0 < n) :
    (generate_trading_decision tickers signals_by_ticker current_prices max_shares
        portfolio llm t).map Decision.action =
      (generate_trading_decision tickers signals_by_ticker current_prices max_shares
        portfolio llm t).map (fun _ => Action.hold) := by
  unfold generate_trading_decision
  have hne : ¬ (tickersForLLM tickers current_prices max_shares portfolio).isEmpty := by
    intro h
    rw [List.isEmpty_iff] at h
    rw [h] at htm
    exact (List.not_mem_nil t) htm
  rw [if_neg hne, if_pos htm]
  cases hm : mergedDecisions tickers current_prices max_shares portfolio llm t with
  | none => rfl
  | some d =>
      have hsig : ¬ (signals_by_ticker t).isEmpty := by
        intro h
        rw [List.isEmpty_iff] at h
        rw [h] at hc
        have : (0:ℕ) = n := congrArg (fun q => q.2.2) hc
        omega
      simp only [Option.map_some']
      rw [if_neg hsig]
      rw [applyNeutralOverride_action (signals_by_ticker t) d n hc hn]

/-- C1 (counterexample): the proposer returns `sell 999` for a ticker
    whose allowed set is `{hold: 0, buy: 5, short: ...}` — the reconciled
    output keeps `sell 999` verbatim (no replacement by the default
    decision), even though `sell` is not in the allowed set. -/
theorem generate_trading_decision_unvalidated :
    generate_trading_decision ["A"] (fun _ => ([] : List (String × SigEntry)))
      (fun t => if t = "A" then some 10 else none) (fun t => if t = "A" then some 5 else none)
      ⟨some 100, some (fun _ => none), none, none, none⟩
      (some (fun t => if t = "A" then some ⟨.sell, 999, 50, "proposer sells"⟩ else none)) "A" =
      some ⟨.sell, 999, 50, "proposer sells"⟩ ∧
    (compute_allowed_actions ["A"] (fun t => if t = "A" then some 10 else none)
      (fun t => if t = "A" then some 5 else none)
      ⟨some 100, some (fun _ => none), none, none, none⟩ "A").map (fun f => f .sell) =
      some none := by
  constructor
  · have h2 : onlyHoldOpt (compute_allowed_actions ["A"]
        (fun t => if t = "A" then some 10 else none)
        (fun t => if t = "A" then some 5 else none)
        ⟨some 100, some (fun _ => none), none, none, none⟩ "A") = false := by
      simp [onlyHoldOpt, compute_allowed_actions, rawActions, pruneActions,
        pfCash, pfPositions, pfMarginRequirement, pfMarginUsed, pfEquity]
      norm_num
    have hfl : tickersForLLM ["A"] (fun t => if t = "A" then some 10 else none)
        (fun t => if t = "A" then some 5 else none)
        ⟨some 100, some (fun _ => none), none, none, none⟩ = ["A"] := by
      simp [tickersForLLM, List.filter, h2]
    simp [generate_trading_decision, hfl, mergedDecisions, llmOutDecisions]
  · simp [compute_allowed_actions, rawActions, pruneActions,
      pfCash, pfPositions, pfMarginRequirement, pfMarginUsed, pfEquity]

/-- C2 (counterexample): with a 100% neutral signal summary, a proposed
    decision `hold` with quantity 7 is kept verbatim — quantity 7, not 0,
    and the reasoning does not record any override — because the
    override only fires when the proposed action differs from `hold`. -/
theorem generate_trading_decision_neutral_quantity_kept :
    generate_trading_decision ["A"]
      (fun t => if t = "A" then [("a1", (⟨some "neutral", none⟩ : SigEntry))] else [])
      (fun t => if t = "A" then some 10 else none) (fun t => if t = "A" then some 5 else none)
      ⟨some 100, some (fun _ => none), none, none, none⟩
      (some (fun t => if t = "A" then some ⟨.hold, 7, 50, "proposer holds 7"⟩ else none)) "A" =
      some ⟨.hold, 7, 50, "proposer holds 7"⟩ ∧
    (generate_trading_decision ["A"]
      (fun t => if t = "A" then [("a1", (⟨some "neutral", none⟩ : SigEntry))] else [])
      (fun t => if t = "A" then some 10 else none) (fun t => if t = "A" then some 5 else none)
      ⟨some 100, some (fun _ => none), none, none, none⟩
      (some (fun t => if t = "A" then some ⟨.hold, 7, 50, "proposer holds 7"⟩ else none)) "A").map
        Decision.quantity ≠ some 0 := by
  have h2 : onlyHoldOpt (compute_allowed_actions ["A"]
      (fun t => if t = "A" then some 10 else none)
      (fun t => if t = "A" then some 5 else none)
      ⟨some 100, some (fun _ => none), none, none, none⟩ "A") = false := by
    simp [onlyHoldOpt, compute_allowed_actions, rawActions, pruneActions,
      pfCash, pfPositions, pfMarginRequirement, pfMarginUsed, pfEquity]
    norm_num
  have hfl : tickersForLLM ["A"] (fun t => if t = "A" then some 10 else none)
      (fun t => if t = "A" then some 5 else none)
      ⟨some 100, some (fun _ => none), none, none, none⟩ = ["A"] := by
    simp [tickersForLLM, List.filter, h2]
  have hcount : countSignals [("a1", (⟨some "neutral", none⟩ : SigEntry))] = (0, 0, 1) := by
    decide
  have hmain : generate_trading_decision ["A"]
      (fun t => if t = "A" then [("a1", (⟨some "neutral", none⟩ : SigEntry))] else [])
      (fun t => if t = "A" then some 10 else none) (fun t => if t = "A" then some 5 else none)
      ⟨some 100, some (fun _ => none), none, none, none⟩
      (some (fun t => if t = "A" then some ⟨.hold, 7, 50, "proposer holds 7"⟩ else none)) "A" =
      some ⟨.hold, 7, 50, "proposer holds 7"⟩ := by
    simp [generate_trading_decision, hfl, mergedDecisions, llmOutDecisions,
      applyNeutralOverride, hcount]
  exact ⟨hmain, by rw [hmain]; simp⟩

/-- C1 witness: the conditional bounds theorem applied at a concrete
    input whose proposer returns a valid `buy 3` (allowed buy bound 5). -/
theorem generate_trading_decision_bounds_witness :
    decisionOkO (compute_allowed_actions ["A"] (fun t => if t = "A" then some 10 else none)
        (fun t => if t = "A" then some 5 else none)
        ⟨some 100, some (fun _ => none), none, none, none⟩ "A")
      (generate_trading_decision ["A"] (fun _ => ([] : List (String × SigEntry)))
        (fun t => if t = "A" then some 10 else none) (fun t => if t = "A" then some 5 else none)
        ⟨some 100, some (fun _ => none), none, none, none⟩
        (some (fun t => if t = "A" then some ⟨.buy, 3, 50, "go long"⟩ else none)) "A") = true := by
  have hv : ∀ g, (some (fun t => if t = "A" then some (⟨.buy, 3, 50, "go long"⟩ : Decision) else none) :
      Option (String → Option Decision)) = some g → ∀ s,
      decisionOkO (compute_allowed_actions ["A"] (fun t => if t = "A" then some 10 else none)
        (fun t => if t = "A" then some 5 else none)
        ⟨some 100, some (fun _ => none), none, none, none⟩ s) (g s) = true := by
    intro g hg s
    obtain rfl := Option.some_inj.mp hg
    by_cases hs : s = "A"
    · subst hs
      simp [decisionOkO, decisionOk, compute_allowed_actions, rawActions, pruneActions,
        pfCash, pfPositions, pfMarginRequirement, pfMarginUsed, pfEquity]
      norm_num
    · simp [decisionOkO, hs]
  exact (generate_trading_decision_bounds ["A"] (fun _ => []) _ _ _ _ hv).1 "A"

/-- C2 witness: the amended neutral-override theorem applied at a
    concrete input where the proposer answers `buy 3` against a 100%
    neutral signal summary. -/
theorem generate_trading_decision_neutral_hold_witness :
    (generate_trading_decision ["A"]
      (fun t => if t = "A" then [("a1", (⟨some "neutral", none⟩ : SigEntry))] else [])
      (fun t => if t = "A" then some 10 else none) (fun t => if t = "A" then some 5 else none)
      ⟨some 100, some (fun _ => none), none, none, none⟩
      (some (fun t => if t = "A" then some ⟨.buy, 3, 50, "go long"⟩ else none)) "A").map
        Decision.action =
    (generate_trading_decision ["A"]
      (fun t => if t = "A" then [("a1", (⟨some "neutral", none⟩ : SigEntry))] else [])
      (fun t => if t = "A" then some 10 else none) (fun t => if t = "A" then some 5 else none)
      ⟨some 100, some (fun _ => none), none, none, none⟩
      (some (fun t => if t = "A" then some ⟨.buy, 3, 50, "go long"⟩ else none)) "A").map
        (fun _ => Action.hold) := by
  have h2 : onlyHoldOpt (compute_allowed_actions ["A"]
      (fun t => if t = "A" then some 10 else none)
      (fun t => if t = "A" then some 5 else none)
      ⟨some 100, some (fun _ => none), none, none, none⟩ "A") = false := by
    simp [onlyHoldOpt, compute_allowed_actions, rawActions, pruneActions,
      pfCash, pfPositions, pfMarginRequirement, pfMarginUsed, pfEquity]
    norm_num
  have hfl : tickersForLLM ["A"] (fun t => if t = "A" then some 10 else none)
      (fun t => if t = "A" then some 5 else none)
      ⟨some 100, some (fun _ => none), none, none, none⟩ = ["A"] := by
    simp [tickersForLLM, List.filter, h2]
  exact generate_trading_decision_neutral_hold ["A"] _ _ _ _ _ "A" 1
    (by rw [hfl]; simp) (by decide) (by decide)


theorem weightedSums_zero_conf (signals : List (String × SigConf)) (weights : String → ℚ)
    (h : ∀ p ∈ signals, (Prod.snd p).confidence = 0) :
    weightedSums signals weights = (0, 0) := by
  unfold weightedSums
  induction signals with
  | nil => rfl
  | cons a l ih =>
      have ha : a.2.confidence = 0 := h a (List.mem_cons_self a l)
      simp only [List.foldl_cons, ha, mul_zero, add_zero]
      exact ih (fun p hp => h p (List.mem_cons_of_mem a hp))

/-- C5: (a) for any signal set whose confidences are all zero, the total
    confidence weight is zero, so `final_score` is 0 (a defined edge case,
    not a division error) and the combined signal is neutral with
    confidence 0; (b) on the concrete input of Scenario C — the five
    strategies all neutral with confidence 0.5 and the fixed weight table
    — the combined signal is neutral with confidence exactly 0. -/
theorem weighted_signal_combination_boundary :
    (∀ (signals : List (String × SigConf)) (weights : String → ℚ),
      (∀ p ∈ signals, (Prod.snd p).confidence = 0) →
        final_score signals weights = 0 ∧
        weighted_signal_combination signals weights = ⟨.neutral, 0⟩) ∧
    weighted_signal_combination
      [("trend", ⟨.neutral, 1/2⟩), ("mean_reversion", ⟨.neutral, 1/2⟩),
       ("momentum", ⟨.neutral, 1/2⟩), ("volatility", ⟨.neutral, 1/2⟩),
       ("stat_arb", ⟨.neutral, 1/2⟩)]
      (fun s => if s = "trend" then 1/4 else if s = "mean_reversion" then 1/5
        else if s = "momentum" then 1/4 else if s = "volatility" then 3/20
        else if s = "stat_arb" then 3/20 else 0) = ⟨.neutral, 0⟩ := by
  constructor
  · intro signals weights h
    have hs : final_score signals weights = 0 := by
      unfold final_score
      rw [weightedSums_zero_conf signals weights h]
      norm_num
    refine ⟨hs, ?_⟩
    unfold weighted_signal_combination
    rw [hs]
    norm_num
  · unfold weighted_signal_combination final_score weightedSums
    simp [signalValue]
    norm_num

/-- C5 witness: the all-zero-confidence clause applied at a concrete
    one-signal input. -/
theorem weighted_signal_combination_boundary_witness :
    (∀ p ∈ [("trend", (⟨.bullish, 0⟩ : SigConf))], (Prod.snd p).confidence = 0) ∧
    (final_score [("trend", (⟨.bullish, 0⟩ : SigConf))] (fun _ => 1/4) = 0 ∧
      weighted_signal_combination [("trend", (⟨.bullish, 0⟩ : SigConf))] (fun _ => 1/4) =
        ⟨.neutral, 0⟩) :=
  ⟨by intro p hp; simp at hp; rw [hp], weighted_signal_combination_boundary.1
    [("trend", ⟨.bullish, 0⟩)] (fun _ => 1/4)
    (by intro p hp; simp at hp; rw [hp])⟩


theorem npStd_of_zeros (xs : List ℝ) (h : ∀ x ∈ xs, x = 0) : npStd xs = 0 := by
  have hsum : xs.sum = 0 := List.sum_eq_zero h
  have hmean : meanR xs = 0 := by
    unfold meanR
    rw [hsum, zero_div]
  have hsq : (xs.map (fun x => (x - meanR xs) ^ 2)).sum = 0 := by
    apply List.sum_eq_zero
    intro y hy
    obtain ⟨x, hx, rfl⟩ := List.mem_map.mp hy
    rw [h x hx, hmean]
    norm_num
  unfold npStd
  rw [hsq, zero_div, Real.sqrt_zero]

theorem tauOf_eq (p : List ℝ) (lag : ℕ) : tauOf p lag = 1e-8 := by
  unfold tauOf
  have hz : npStd (alignedLagDiffs p lag) = 0 := by
    apply npStd_of_zeros
    intro x hx
    obtain ⟨i, _, rfl⟩ := List.mem_map.mp hx
    exact sub_self _
  rw [hz, Real.sqrt_zero, max_eq_left (by norm_num)]

theorem sum_snd_of_const (pts : List (ℝ × ℝ)) (c : ℝ) (h : ∀ q ∈ pts, q.2 = c) :
    (pts.map Prod.snd).sum = c * pts.length := by
  induction pts with
  | nil => simp
  | cons a l ih =>
      have ha : a.2 = c := h a (List.mem_cons_self a l)
      have ihl := ih (fun q hq => h q (List.mem_cons_of_mem a hq))
      simp only [List.map_cons, List.sum_cons, ha, ihl, List.length_cons]
      push_cast
      ring

theorem sum_mul_snd_of_const (pts : List (ℝ × ℝ)) (c : ℝ) (h : ∀ q ∈ pts, q.2 = c) :
    (pts.map (fun q => q.1 * q.2)).sum = c * (pts.map Prod.fst).sum := by
  induction pts with
  | nil => simp
  | cons a l ih =>
      have ha : a.2 = c := h a (List.mem_cons_self a l)
      have ihl := ih (fun q hq => h q (List.mem_cons_of_mem a hq))
      simp only [List.map_cons, List.sum_cons, ha, ihl]
      ring

theorem polyfitSlope_const (pts : List (ℝ × ℝ)) (c : ℝ) (h : ∀ q ∈ pts, q.2 = c) :
    polyfitSlope pts = 0 := by
  simp only [polyfitSlope]
  rw [sum_snd_of_const pts c h, sum_mul_snd_of_const pts c h]
  have h0 : (pts.length : ℝ) * (c * (pts.map Prod.fst).sum) -
      (pts.map Prod.fst).sum * (c * pts.length) = 0 := by ring
  rw [h0, zero_div]

theorem calculate_hurst_exponent_eq_zero (p : List ℝ) (maxLag : ℕ) :
    calculate_hurst_exponent p maxLag = 0 := by
  unfold calculate_hurst_exponent
  apply polyfitSlope_const _ (Real.log 1e-8)
  intro q hq
  obtain ⟨l, _, rfl⟩ := List.mem_map.mp hq
  simp only [tauOf_eq]

/-- C6 (counterexample): on a constant price series the Hurst estimator
    does NOT return 0.5.  The epsilon floor makes every log-dispersion
    equal to log(1e-8), the regression succeeds, and its slope is 0. -/
theorem hurst_constant_series_ne_half :
    calculate_hurst_exponent (List.replicate 30 (100 : ℝ)) 20 ≠ 1 / 2 := by
  rw [calculate_hurst_exponent_eq_zero]
  norm_num

/-- C6 (amended): on every constant price series (any length, any value)
    the Hurst estimator returns exactly 0 — no NaN, no exception: the
    lagged differences are all zero, `tau` is the constant `1e-8`, and the
    least-squares slope of a constant dependent variable is 0.  The 0.5
    fallback is returned only when `np.polyfit` raises, which does not
    happen here. -/
theorem hurst_constant_series_eq_zero (c : ℝ) (n : ℕ) :
    calculate_hurst_exponent (List.replicate n c) 20 = 0 :=
  calculate_hurst_exponent_eq_zero (List.replicate n c) 20


theorem plusDmAt_nonneg (bars : List Bar) (i : ℕ) : 0 ≤ plusDmAt bars i := by
  unfold plusDmAt
  split
  · exact le_refl 0
  · dsimp only
    split
    · next h => exact le_of_lt h.2
    · exact le_refl 0

theorem minusDmAt_nonneg (bars : List Bar) (i : ℕ) : 0 ≤ minusDmAt bars i := by
  unfold minusDmAt
  split
  · exact le_refl 0
  · dsimp only
    split
    · next h => exact le_of_lt h.2
    · exact le_refl 0

theorem trAt_nonneg (bars : List Bar) (hne : bars ≠ [])
    (hb : ∀ b ∈ bars, b.low ≤ b.high) (i : ℕ) : 0 ≤ trAt bars i := by
  unfold trAt
  split
  · have hlen : 0 < bars.length := List.length_pos.mpr hne
    have hmem : bars.getD 0 ⟨0, 0, 0, 0, 0⟩ ∈ bars := by
      rw [List.getD_eq_getElem bars _ hlen]
      exact List.getElem_mem hlen
    have := hb _ hmem
    unfold highAt lowAt
    linarith
  · exact le_trans (abs_nonneg _) (le_trans (le_max_left _ _) (le_max_right _ _))

theorem ewm_weight_nonneg (span : ℕ) (hspan : 1 ≤ span) :
    0 ≤ 1 - 2 / ((span : ℝ) + 1) := by
  have h1 : (1 : ℝ) ≤ (span : ℝ) := by exact_mod_cast hspan
  have h2 : (0 : ℝ) < (span : ℝ) + 1 := by linarith
  have h3 : 2 / ((span : ℝ) + 1) ≤ 1 := by
    rw [div_le_one h2]
    linarith
  linarith

theorem ewmSpanMeanAt_nonneg (span : ℕ) (x : ℕ → ℝ) (t : ℕ) (hspan : 1 ≤ span)
    (hx : ∀ i, i ≤ t → 0 ≤ x i) : 0 ≤ ewmSpanMeanAt span x t := by
  unfold ewmSpanMeanAt
  apply div_nonneg
  · apply List.sum_nonneg
    intro y hy
    obtain ⟨i, hi, rfl⟩ := List.mem_map.mp hy
    exact mul_nonneg (pow_nonneg (ewm_weight_nonneg span hspan) _)
      (hx i (Nat.lt_succ_iff.mp (List.mem_range.mp hi)))
  · apply List.sum_nonneg
    intro y hy
    obtain ⟨i, hi, rfl⟩ := List.mem_map.mp hy
    exact pow_nonneg (ewm_weight_nonneg span hspan) _

theorem ewmSpanMeanAt_den_pos (span : ℕ) (t : ℕ) (hspan : 1 ≤ span) :
    0 < ((List.range (t + 1)).map (fun i => (1 - 2 / ((span : ℝ) + 1)) ^ (t - i))).sum := by
  have h1 : ((1 : ℝ) - 2 / ((span : ℝ) + 1)) ^ (t - t) ∈
      (List.range (t + 1)).map (fun i => (1 - 2 / ((span : ℝ) + 1)) ^ (t - i)) :=
    List.mem_map.mpr ⟨t, List.mem_range.mpr (Nat.lt_succ_self t), rfl⟩
  have h2 : ((1 : ℝ) - 2 / ((span : ℝ) + 1)) ^ (t - t) = 1 := by
    rw [Nat.sub_self]
    exact pow_zero _
  have h3 := List.single_le_sum (fun y hy => by
    obtain ⟨i, _, rfl⟩ := List.mem_map.mp hy
    exact pow_nonneg (ewm_weight_nonneg span hspan) _) _ h1
  rw [h2] at h3
  linarith

theorem ewm_weight_pos (span : ℕ) (hspan : 2 ≤ span) :
    0 < 1 - 2 / ((span : ℝ) + 1) := by
  have h1 : (2 : ℝ) ≤ (span : ℝ) := by exact_mod_cast hspan
  have h2 : (0 : ℝ) < (span : ℝ) + 1 := by linarith
  have h3 : 2 / ((span : ℝ) + 1) < 1 := by
    rw [div_lt_one h2]
    linarith
  linarith

theorem ewmSpanMeanAt_eq_zero (span : ℕ) (x : ℕ → ℝ) (t : ℕ)
    (hx : ∀ i, i ≤ t → x i = 0) : ewmSpanMeanAt span x t = 0 := by
  unfold ewmSpanMeanAt
  have hnum : ((List.range (t + 1)).map
      (fun i => (1 - 2 / ((span : ℝ) + 1)) ^ (t - i) * x i)).sum = 0 := by
    apply List.sum_eq_zero
    intro y hy
    obtain ⟨i, hi, rfl⟩ := List.mem_map.mp hy
    rw [hx i (Nat.lt_succ_iff.mp (List.mem_range.mp hi)), mul_zero]
  rw [hnum, zero_div]

theorem sum_map_mul_const (w : ℕ → ℝ) (c : ℝ) (l : List ℕ) :
    (l.map (fun i => w i * c)).sum = c * (l.map (fun i => w i)).sum := by
  induction l with
  | nil => simp
  | cons a l ih =>
      simp only [List.map_cons, List.sum_cons, ih]
      ring

theorem ewmSpanMeanAtO_bounds (span : ℕ) (x : ℕ → Option ℝ) (t : ℕ) (hi : ℝ)
    (hspan : 2 ≤ span)
    (hx : ∀ i, i ≤ t → ∀ v, x i = some v → 0 ≤ v ∧ v ≤ hi) :
    ∀ a, ewmSpanMeanAtO span x t = some a → 0 ≤ a ∧ a ≤ hi := by
  intro a ha
  unfold ewmSpanMeanAtO at ha
  dsimp only at ha
  by_cases hemp : ((List.range (t + 1)).filter (fun i => (x i).isSome)).isEmpty
  · rw [if_pos hemp] at ha
    exact absurd ha (by simp)
  · rw [if_neg hemp] at ha
    have hne : (List.range (t + 1)).filter (fun i => (x i).isSome) ≠ [] := by
      intro h
      rw [h] at hemp
      exact hemp rfl
    have hden : 0 < (((List.range (t + 1)).filter (fun i => (x i).isSome)).map
        (fun i => (1 - 2 / ((span : ℝ) + 1)) ^ (t - i))).sum := by
      apply List.sum_pos
      · intro y hy
        obtain ⟨i, _, rfl⟩ := List.mem_map.mp hy
        exact pow_pos (ewm_weight_pos span hspan) _
      · intro h
        exact hne (List.map_eq_nil_iff.mp h)
    have hnum0 : 0 ≤ (((List.range (t + 1)).filter (fun i => (x i).isSome)).map
        (fun i => (1 - 2 / ((span : ℝ) + 1)) ^ (t - i) * (x i).getD 0)).sum := by
      apply List.sum_nonneg
      intro y hy
      obtain ⟨i, hil, rfl⟩ := List.mem_map.mp hy
      have hmem := List.mem_filter.mp hil
      have hit : i ≤ t := Nat.lt_succ_iff.mp (List.mem_range.mp hmem.1)
      obtain ⟨v, hv⟩ := Option.isSome_iff_exists.mp hmem.2
      have hvb := hx i hit v hv
      rw [hv, Option.getD_some]
      exact mul_nonneg (le_of_lt (pow_pos (ewm_weight_pos span hspan) _)) hvb.1
    have hnum1 : (((List.range (t + 1)).filter (fun i => (x i).isSome)).map
        (fun i => (1 - 2 / ((span : ℝ) + 1)) ^ (t - i) * (x i).getD 0)).sum ≤
        hi * (((List.range (t + 1)).filter (fun i => (x i).isSome)).map
          (fun i => (1 - 2 / ((span : ℝ) + 1)) ^ (t - i))).sum := by
      have hstep : (((List.range (t + 1)).filter (fun i => (x i).isSome)).map
          (fun i => (1 - 2 / ((span : ℝ) + 1)) ^ (t - i) * (x i).getD 0)).sum ≤
          (((List.range (t + 1)).filter (fun i => (x i).isSome)).map
            (fun i => (1 - 2 / ((span : ℝ) + 1)) ^ (t - i) * hi)).sum := by
        apply List.sum_le_sum
        intro i hil
        have hmem := List.mem_filter.mp hil
        have hit : i ≤ t := Nat.lt_succ_iff.mp (List.mem_range.mp hmem.1)
        obtain ⟨v, hv⟩ := Option.isSome_iff_exists.mp hmem.2
        have hvb := hx i hit v hv
        rw [hv, Option.getD_some]
        exact mul_le_mul_of_nonneg_left hvb.2
          (le_of_lt (pow_pos (ewm_weight_pos span hspan) _))
      rw [sum_map_mul_const (fun i => (1 - 2 / ((span : ℝ) + 1)) ^ (t - i)) hi] at hstep
      exact hstep
    have hae := Option.some.inj ha
    subst hae
    constructor
    · exact div_nonneg hnum0 (le_of_lt hden)
    · rw [div_le_iff₀ hden]
      exact hnum1

theorem plusDiAt_some_nonneg (bars : List Bar) (period t : ℕ) (hspan : 1 ≤ period)
    (hne : bars ≠ []) (hb : ∀ b ∈ bars, b.low ≤ b.high) :
    ∀ v, plusDiAt bars period t = some v → 0 ≤ v := by
  intro v hv
  unfold plusDiAt at hv
  by_cases h0 : ewmSpanMeanAt period (trAt bars) t = 0
  · rw [if_pos h0] at hv
    exact absurd hv (by simp)
  · rw [if_neg h0] at hv
    have hve := Option.some.inj hv
    subst hve
    exact mul_nonneg (by norm_num)
      (div_nonneg
        (ewmSpanMeanAt_nonneg period _ t hspan (fun i _ => plusDmAt_nonneg bars i))
        (ewmSpanMeanAt_nonneg period _ t hspan (fun i _ => trAt_nonneg bars hne hb i)))

theorem minusDiAt_some_nonneg (bars : List Bar) (period t : ℕ) (hspan : 1 ≤ period)
    (hne : bars ≠ []) (hb : ∀ b ∈ bars, b.low ≤ b.high) :
    ∀ v, minusDiAt bars period t = some v → 0 ≤ v := by
  intro v hv
  unfold minusDiAt at hv
  by_cases h0 : ewmSpanMeanAt period (trAt bars) t = 0
  · rw [if_pos h0] at hv
    exact absurd hv (by simp)
  · rw [if_neg h0] at hv
    have hve := Option.some.inj hv
    subst hve
    exact mul_nonneg (by norm_num)
      (div_nonneg
        (ewmSpanMeanAt_nonneg period _ t hspan (fun i _ => minusDmAt_nonneg bars i))
        (ewmSpanMeanAt_nonneg period _ t hspan (fun i _ => trAt_nonneg bars hne hb i)))

theorem dxAt_some_bounds (bars : List Bar) (period t : ℕ) (hspan : 1 ≤ period)
    (hne : bars ≠ []) (hb : ∀ b ∈ bars, b.low ≤ b.high) :
    ∀ d, dxAt bars period t = some d → 0 ≤ d ∧ d ≤ 100 := by
  intro d hd
  unfold dxAt at hd
  cases hp : plusDiAt bars period t with
  | none =>
      cases hm : minusDiAt bars period t with
      | none =>
          rw [hp, hm] at hd
          simp at hd
      | some m =>
          rw [hp, hm] at hd
          simp at hd
  | some p =>
      cases hm : minusDiAt bars period t with
      | none =>
          rw [hp, hm] at hd
          simp at hd
      | some m =>
          rw [hp, hm] at hd
          dsimp only at hd
          by_cases hpm : p + m = 0
          · rw [if_pos hpm] at hd
            exact absurd hd (by simp)
          · rw [if_neg hpm] at hd
            have hde := Option.some.inj hd
            subst hde
            have hp0 := plusDiAt_some_nonneg bars period t hspan hne hb p hp
            have hm0 := minusDiAt_some_nonneg bars period t hspan hne hb m hm
            have hsum : 0 < p + m := lt_of_le_of_ne (add_nonneg hp0 hm0) (Ne.symm hpm)
            constructor
            · exact div_nonneg (mul_nonneg (by norm_num) (abs_nonneg _)) (le_of_lt hsum)
            · rw [div_le_iff₀ hsum]
              have habs : |p - m| ≤ p + m := abs_sub_le_iff.mpr ⟨by linarith, by linarith⟩
              nlinarith

theorem adxAt_some_bounds (bars : List Bar) (period t : ℕ) (hspan : 2 ≤ period)
    (hne : bars ≠ []) (hb : ∀ b ∈ bars, b.low ≤ b.high) :
    ∀ a, adxAt bars period t = some a → 0 ≤ a ∧ a ≤ 100 := by
  intro a ha
  unfold adxAt at ha
  exact ewmSpanMeanAtO_bounds period (dxAt bars period) t 100 hspan
    (fun i _ v hv => dxAt_some_bounds bars period i (le_trans (by norm_num) hspan) hne hb v hv)
    a ha

theorem trendDecision_conf (e8 e21 e55 : ℝ) (ts : Option ℝ) (h : confIn01OrNaN ts) :
    confIn01OrNaN (trendDecision e8 e21 e55 ts).confidence := by
  unfold trendDecision
  split_ifs
  · exact h
  · exact h
  · exact ⟨by norm_num, by norm_num⟩

theorem meanReversionDecision_conf (o1 o2 : Option ℝ) :
    confIn01 (meanReversionDecision o1 o2).confidence := by
  unfold meanReversionDecision
  cases o1 with
  | none =>
      cases o2 with
      | none => exact ⟨by norm_num, by norm_num⟩
      | some pvb => exact ⟨by norm_num, by norm_num⟩
  | some z =>
      cases o2 with
      | none => exact ⟨by norm_num, by norm_num⟩
      | some pvb =>
          dsimp only
          split_ifs
          · exact ⟨le_min (div_nonneg (abs_nonneg _) (by norm_num)) zero_le_one,
              min_le_right _ _⟩
          · exact ⟨le_min (div_nonneg (abs_nonneg _) (by norm_num)) zero_le_one,
              min_le_right _ _⟩
          · exact ⟨by norm_num, by norm_num⟩

theorem momentumDecision_conf (o1 o2 : Option ℝ) :
    confIn01 (momentumDecision o1 o2).confidence := by
  unfold momentumDecision
  cases o1 with
  | none =>
      cases o2 with
      | none => exact ⟨by norm_num, by norm_num⟩
      | some vm => exact ⟨by norm_num, by norm_num⟩
  | some s =>
      cases o2 with
      | none => exact ⟨by norm_num, by norm_num⟩
      | some vm =>
          dsimp only
          split_ifs
          · exact ⟨le_min (mul_nonneg (abs_nonneg _) (by norm_num)) zero_le_one,
              min_le_right _ _⟩
          · exact ⟨le_min (mul_nonneg (abs_nonneg _) (by norm_num)) zero_le_one,
              min_le_right _ _⟩
          · exact ⟨by norm_num, by norm_num⟩

theorem volatilityDecision_conf (o1 o2 : Option ℝ) :
    confIn01 (volatilityDecision o1 o2).confidence := by
  unfold volatilityDecision
  cases o1 with
  | none =>
      cases o2 with
      | none => exact ⟨by norm_num, by norm_num⟩
      | some vz => exact ⟨by norm_num, by norm_num⟩
  | some vr =>
      cases o2 with
      | none => exact ⟨by norm_num, by norm_num⟩
      | some vz =>
          dsimp only
          split_ifs
          · exact ⟨le_min (div_nonneg (abs_nonneg _) (by norm_num)) zero_le_one,
              min_le_right _ _⟩
          · exact ⟨le_min (div_nonneg (abs_nonneg _) (by norm_num)) zero_le_one,
              min_le_right _ _⟩
          · exact ⟨by norm_num, by norm_num⟩

theorem statArbDecision_conf (hurst : ℝ) (o : Option ℝ) (hh : hurst = 0) :
    confIn01 (statArbDecision hurst o).confidence := by
  subst hh
  unfold statArbDecision
  cases o with
  | none => exact ⟨by norm_num, by norm_num⟩
  | some sk =>
      dsimp only
      split_ifs
      · exact ⟨by norm_num, by norm_num⟩
      · exact ⟨by norm_num, by norm_num⟩
      · exact ⟨by norm_num, by norm_num⟩


/-- C9 (counterexample): a single completely flat bar (open = high = low =
    close = 1) is a non-empty well-formed series (low ≤ high), yet the
    trend strategy returns `⟨bearish, NaN⟩`: the EMAs coincide so the
    bearish branch fires, the true range is identically 0, so
    `+di = 100·(0/0)` is NaN, `dx` and `adx` are NaN, and the returned
    confidence `adx/100` is NaN — not a number in [0, 1]. -/
theorem trend_confidence_nan_on_flat_series :
    (((⟨1, 1, 1, 1, 1⟩ : Bar) :: []) ≠ [] ∧
      ∀ b ∈ ((⟨1, 1, 1, 1, 1⟩ : Bar) :: []), b.low ≤ b.high) ∧
    calculate_trend_signals ((⟨1, 1, 1, 1, 1⟩ : Bar) :: []) = ⟨.bearish, none⟩ ∧
    ¬ confIn01 (calculate_trend_signals ((⟨1, 1, 1, 1, 1⟩ : Bar) :: [])).confidence := by
  have htr : ∀ i, i ≤ 0 → trAt ((⟨1, 1, 1, 1, 1⟩ : Bar) :: []) i = 0 := by
    intro i hi
    interval_cases i
    simp [trAt, highAt, lowAt]
  have hewm : ewmSpanMeanAt 14 (trAt ((⟨1, 1, 1, 1, 1⟩ : Bar) :: [])) 0 = 0 :=
    ewmSpanMeanAt_eq_zero 14 _ 0 htr
  have hdip : plusDiAt ((⟨1, 1, 1, 1, 1⟩ : Bar) :: []) 14 0 = none := by
    unfold plusDiAt
    rw [if_pos hewm]
  have hdim : minusDiAt ((⟨1, 1, 1, 1, 1⟩ : Bar) :: []) 14 0 = none := by
    unfold minusDiAt
    rw [if_pos hewm]
  have hdx : dxAt ((⟨1, 1, 1, 1, 1⟩ : Bar) :: []) 14 0 = none := by
    unfold dxAt
    rw [hdip, hdim]
  have hadx : adxAt ((⟨1, 1, 1, 1, 1⟩ : Bar) :: []) 14 0 = none := by
    unfold adxAt ewmSpanMeanAtO
    have hfil : (List.range (0 + 1)).filter
        (fun i => (dxAt ((⟨1, 1, 1, 1, 1⟩ : Bar) :: []) 14 i).isSome) = [] := by
      simp [List.range_succ, hdx]
    dsimp only
    rw [hfil]
    rfl
  have hmain : calculate_trend_signals ((⟨1, 1, 1, 1, 1⟩ : Bar) :: []) =
      ⟨.bearish, none⟩ := by
    unfold calculate_trend_signals
    have hlen : (((⟨1, 1, 1, 1, 1⟩ : Bar) :: []) : List Bar).length - 1 = 0 := rfl
    rw [hlen, hadx]
    simp only [Option.map_none']
    have hcl : closes ((⟨1, 1, 1, 1, 1⟩ : Bar) :: []) = [(1 : ℝ)] := rfl
    rw [hcl]
    norm_num [calculate_ema_last, trendDecision]
  refine ⟨⟨by simp, ?_⟩, hmain, ?_⟩
  · intro b hbm
    rw [List.mem_singleton] at hbm
    subst hbm
    norm_num
  · rw [hmain]
    intro hcontra
    exact hcontra

/-- C9 (amended): for every non-empty OHLCV series with well-formed bars
    (low ≤ high), the mean-reversion, momentum, volatility and stat-arb
    confidences are real numbers in [0, 1] (the stat-arb confidence
    `(0.5 − hurst)·2` never exceeds 1 since the Hurst estimate is always 0,
    see the C6 analysis); the trend confidence lies in [0, 1] whenever it is
    a real number, but it is NaN (= ADX/100 with ADX NaN) on degenerate
    series such as a flat one, so it is not always a number in [0, 1]. -/
theorem strategy_confidences_bounded (bars : List Bar) (hne : bars ≠ [])
    (hb : ∀ b ∈ bars, b.low ≤ b.high) :
    confIn01OrNaN (calculate_trend_signals bars).confidence ∧
    confIn01 (calculate_mean_reversion_signals bars).confidence ∧
    confIn01 (calculate_momentum_signals bars).confidence ∧
    confIn01 (calculate_volatility_signals bars).confidence ∧
    confIn01 (calculate_stat_arb_signals bars).confidence ∧
    (0.5 - calculate_hurst_exponent (closes bars) 20) * 2 ≤ 1 := by
  refine ⟨?_, ?_, ?_, ?_, ?_, ?_⟩
  · unfold calculate_trend_signals
    apply trendDecision_conf
    cases hadx : adxAt bars 14 (bars.length - 1) with
    | none => exact trivial
    | some a =>
        have hbd := adxAt_some_bounds bars 14 (bars.length - 1) (by norm_num) hne hb a hadx
        exact ⟨div_nonneg hbd.1 (by norm_num), (div_le_one (by norm_num)).mpr hbd.2⟩
  · unfold calculate_mean_reversion_signals
    exact meanReversionDecision_conf _ _
  · unfold calculate_momentum_signals
    exact momentumDecision_conf _ _
  · unfold calculate_volatility_signals
    exact volatilityDecision_conf _ _
  · unfold calculate_stat_arb_signals
    exact statArbDecision_conf _ _ (calculate_hurst_exponent_eq_zero _ _)
  · rw [calculate_hurst_exponent_eq_zero]
    norm_num

/-- C9 witness: the amended bounds evaluated on a concrete one-bar
    series. -/
theorem strategy_confidences_bounded_witness :
    (((⟨1, 2, 1, 3 / 2, 5⟩ : Bar) :: []) ≠ [] ∧
      ∀ b ∈ ((⟨1, 2, 1, 3 / 2, 5⟩ : Bar) :: []), b.low ≤ b.high) ∧
    confIn01 (calculate_stat_arb_signals ((⟨1, 2, 1, 3 / 2, 5⟩ : Bar) :: [])).confidence :=
  ⟨⟨by simp, by
      intro b hbm
      rw [List.mem_singleton] at hbm
      subst hbm
      norm_num⟩,
    (strategy_confidences_bounded ((⟨1, 2, 1, 3 / 2, 5⟩ : Bar) :: []) (by simp)
      (by
        intro b hbm
        rw [List.mem_singleton] at hbm
        subst hbm
        norm_num)).2.2.2.2.1⟩


end DeepInvestor
